import Mathlib

/-!
Verification of the Game of Life engine in `life.py`: pattern parsing and
normalization, seed placement, the generation-step transition function, the
cycle/extinction detector, and the frame-loop orchestrator.

Cells are integer pairs `(row, col)`; a live set is a `Finset Cell`
(the Python code stores live cells in a `set`).
-/

abbrev Cell := Int × Int

/-- The 8 Moore-neighborhood offsets, in the order the nested
`for dr in (-1,0,1): for dc in (-1,0,1)` loops of `step` visit them,
with the `(0,0)` center skipped. -/
def deltas : List Cell :=
  [(-1, -1), (-1, 0), (-1, 1), (0, -1), (0, 1), (1, -1), (1, 0), (1, 1)]

/-- The bounds test `0 <= rr < rows and 0 <= cc < cols` used by `step`
and `seed_pattern`. -/
def inBounds (rows cols : Int) (p : Cell) : Bool :=
  decide (0 ≤ p.1 ∧ p.1 < rows ∧ 0 ≤ p.2 ∧ p.2 < cols)

/-- The 8 Moore neighbors of a position. -/
def mooreNeighbors (p : Cell) : Finset Cell :=
  ((deltas.map fun d => (p.1 + d.1, p.2 + d.2)) : List Cell).toFinset

/-- Number of live cells adjacent to `p`, guarded by the bounds test, exactly
as accumulated into the `counts` dict of `step` (an out-of-bounds `p` never
receives a count; live neighbors are counted wherever they lie). -/
def neighborCount (live : Finset Cell) (rows cols : Int) (p : Cell) : Nat :=
  if inBounds rows cols p then
    (live.filter fun q => (p.1 - q.1, p.2 - q.2) ∈ deltas).card
  else 0

/-- The key set of the `counts` dict of `step`: every in-bounds position that
is reachable as `live cell + delta`. -/
def candidates (live : Finset Cell) (rows cols : Int) : Finset Cell :=
  live.biUnion fun q =>
    (((deltas.map fun d => (q.1 + d.1, q.2 + d.2)).filter
        fun p => inBounds rows cols p) : List Cell).toFinset

/-- The transition function `step(live, rows, cols)` of `life.py` as a
function of the live set: among the counted positions, keep those with
`neighbors == 3 or (neighbors == 2 and cell in live)`.  The theorem
`stepList_eq_step` proves this agrees with `stepList`, the literal
translation of the Python loops over an enumeration of the set. -/
def step (live : Finset Cell) (rows cols : Int) : Finset Cell :=
  (candidates live rows cols).filter fun p =>
    neighborCount live rows cols p = 3 ∨
      (neighborCount live rows cols p = 2 ∧ p ∈ live)

section StepList

/-- One increment of the `counts` dict: `counts[p] = counts.get(p, 0) + 1`. -/
def bump (f : Cell → Nat) (p : Cell) : Cell → Nat :=
  fun x => if x = p then f x + 1 else f x

/-- The inner double loop of `step` for one live cell `q`: visit the 8
neighbor positions and increment each in-bounds one. -/
def addCell (rows cols : Int) (f : Cell → Nat) (q : Cell) : Cell → Nat :=
  deltas.foldl
    (fun g d =>
      if inBounds rows cols (q.1 + d.1, q.2 + d.2) then
        bump g (q.1 + d.1, q.2 + d.2)
      else g)
    f

/-- The `counts` dict of `step`, built by folding over an enumeration `l`
of the live set (value `0` standing for an absent key). -/
def countsOf (l : List Cell) (rows cols : Int) : Cell → Nat :=
  l.foldl (addCell rows cols) fun _ => 0

/-- The positions inserted into the `counts` dict while processing `l`
(with repetitions; the dict key set is its dedup). -/
def candidatesList (l : List Cell) (rows cols : Int) : List Cell :=
  l.flatMap fun q =>
    (deltas.map fun d => (q.1 + d.1, q.2 + d.2)).filter
      fun p => inBounds rows cols p

/-- Literal translation of `step` run on one particular enumeration `l` of
the live set: build the counts dict by iterating `l`, then keep each counted
position with `neighbors == 3 or (neighbors == 2 and cell in live)`. -/
def stepList (l : List Cell) (rows cols : Int) : Finset Cell :=
  (candidatesList l rows cols).toFinset.filter fun p =>
    countsOf l rows cols p = 3 ∨ (countsOf l rows cols p = 2 ∧ p ∈ l)

end StepList

section NormalizeSeed

/-- Python `min` over a nonempty list, as a fold from its head. -/
def minList (x : Int) (l : List Int) : Int := l.foldl min x

/-- Python `max` over a nonempty list, as a fold from its head. -/
def maxList (x : Int) (l : List Int) : Int := l.foldl max x

/-- Function `normalize_cells(cells)` of `life.py`: shift every cell by
`(-min_row, -min_col)`; an empty input returns the empty list. -/
def normalize_cells (cells : List Cell) : List Cell :=
  match cells with
  | [] => []
  | c :: cs =>
    let min_r := minList c.1 (cs.map Prod.fst)
    let min_c := minList c.2 (cs.map Prod.snd)
    (c :: cs).map fun p => (p.1 - min_r, p.2 - min_c)

/-- Function `seed_pattern(cells, rows, cols)` of `life.py`: normalize, center by
`max(0, (rows - height) // 2)` / `max(0, (cols - width) // 2)` (Python `//`
is floor division, `Int.fdiv`), and keep the translated cells that pass the
bounds test. -/
def seed_pattern (cells : List Cell) (rows cols : Int) : Finset Cell :=
  match normalize_cells cells with
  | [] => ∅
  | c :: cs =>
    let max_r := maxList c.1 (cs.map Prod.fst)
    let max_c := maxList c.2 (cs.map Prod.snd)
    let height := max_r + 1
    let width := max_c + 1
    let offset_r := max 0 (Int.fdiv (rows - height) 2)
    let offset_c := max 0 (Int.fdiv (cols - width) 2)
    (((c :: cs).map fun p => (p.1 + offset_r, p.2 + offset_c)) : List Cell).toFinset.filter
      fun p => inBounds rows cols p

end NormalizeSeed

section OptionVersions

/-- Python `min`, with its failure on an empty sequence made explicit. -/
def minOpt (l : List Int) : Option Int :=
  match l with
  | [] => none
  | x :: xs => some (minList x xs)

/-- Python `max`, with its failure on an empty sequence made explicit. -/
def maxOpt (l : List Int) : Option Int :=
  match l with
  | [] => none
  | x :: xs => some (maxList x xs)

/-- Variant of `normalize_cells` with the error channel of Python `min` kept: the
emptiness guard of the source is retained, and `minOpt` fails on an empty
list.  `normalizeCellsOpt_total` shows the guard makes every call succeed. -/
def normalizeCellsOpt (cells : List Cell) : Option (List Cell) :=
  let rows := cells.map Prod.fst
  let cols := cells.map Prod.snd
  if rows.isEmpty ∨ cols.isEmpty then some []
  else do
    let min_r ← minOpt rows
    let min_c ← minOpt cols
    some (cells.map fun p => (p.1 - min_r, p.2 - min_c))

/-- Variant of `seed_pattern` with the error channels of Python `min`/`max` kept. -/
def seedPatternOpt (cells : List Cell) (rows cols : Int) : Option (Finset Cell) := do
  let normalized ← normalizeCellsOpt cells
  match normalized with
  | [] => some ∅
  | c :: cs => do
    let max_r ← maxOpt ((c :: cs).map Prod.fst)
    let max_c ← maxOpt ((c :: cs).map Prod.snd)
    let height := max_r + 1
    let width := max_c + 1
    let offset_r := max 0 (Int.fdiv (rows - height) 2)
    let offset_c := max 0 (Int.fdiv (cols - width) 2)
    some ((((c :: cs).map fun p => (p.1 + offset_r, p.2 + offset_c)) : List Cell).toFinset.filter
      fun p => inBounds rows cols p)

end OptionVersions

section Orchestrator

/-- Function `parse_pattern(lines, live_char)` of `life.py`: the coordinates of every
`live_char` occurrence, in row-major order. -/
def parse_pattern (lines : List String) (live_char : Char) : List Cell :=
  lines.enum.flatMap fun rl =>
    rl.2.toList.enum.filterMap fun cc =>
      if cc.2 = live_char then some ((rl.1 : Int), (cc.1 : Int)) else none

/-- The fixed pattern catalog of `run` (cell lists only; the names carry no
behavior).  Entry order: Gosper Glider Gun, Pulsar, Acorn, Lightweight
Spaceship. -/
def patterns : List (List Cell) :=
  [ [ (0, 4), (0, 5), (1, 4), (1, 5),
      (10, 4), (10, 5), (10, 6),
      (11, 3), (11, 7),
      (12, 2), (12, 8),
      (13, 2), (13, 8),
      (14, 5),
      (15, 3), (15, 7),
      (16, 4), (16, 5), (16, 6),
      (17, 5),
      (20, 2), (20, 3), (20, 4),
      (21, 2), (21, 3), (21, 4),
      (22, 1), (22, 5),
      (24, 0), (24, 1), (24, 5), (24, 6),
      (34, 2), (34, 3), (35, 2), (35, 3) ],
    parse_pattern
      [ "..OOO...OOO..",
        ".............",
        "O....O.O....O",
        "O....O.O....O",
        "O....O.O....O",
        "..OOO...OOO..",
        ".............",
        "..OOO...OOO..",
        "O....O.O....O",
        "O....O.O....O",
        "O....O.O....O",
        ".............",
        "..OOO...OOO.." ] 'O',
    [ (0, 1), (1, 3), (2, 0), (2, 1), (2, 4), (2, 5), (2, 6) ],
    parse_pattern
      [ ".O..O",
        "O....",
        "O...O",
        "OOOO." ] 'O' ]

/-- The generation fingerprint `hash(frozenset(live))` of `run`, modelled by
the canonical unordered set itself (an injective stand-in for the hash of the
frozenset; total and order-independent by construction). -/
def fingerprint (live : Finset Cell) : Finset Cell := live

/-- The cycle/extinction check of `run` (lines
`state_hash = hash(frozenset(live)); if state_hash in seen_states or not
live: ...` and `seen_states.add(state_hash)`), with the caller's reseed
action factored out: returns the terminal flag and the updated history. -/
def detector_check (seen : Finset (Finset Cell)) (live : Finset Cell) :
    Bool × Finset (Finset Cell) :=
  if fingerprint live ∈ seen ∨ live = ∅ then (true, seen)
  else (false, insert (fingerprint live) seen)

/-- The mutable state owned by `run`: current pattern index, last seen board
dimensions, current live set, and the fingerprint history `seen_states`. -/
structure LoopState where
  patternIndex : Nat
  rows : Int
  cols : Int
  live : Finset Cell
  seen : Finset (Finset Cell)
deriving DecidableEq

/-- Outcome of one iteration of the `while True` loop of `run`. -/
inductive FrameResult where
  | quit : FrameResult
  | cont : LoopState → FrameResult
deriving DecidableEq

/-- Python key codes used by `run`: `ord` of `q`, `Q`, `n`, `N`; `getch`
returns `-1` when no key is pending. -/
def keyCodeQ : Int := 113
def keyCodeQU : Int := 81
def keyCodeN : Int := 110
def keyCodeNU : Int := 78

/-- The resize check at the top of the loop of `run`: if the polled
dimensions differ from the last seen ones, adopt them, reseed the current
pattern and clear the history. -/
def resizeStep (s : LoopState) (rowsNow colsNow : Int) : LoopState :=
  if (rowsNow, colsNow) ≠ (s.rows, s.cols) then
    { s with rows := rowsNow, cols := colsNow,
             live := seed_pattern (patterns.getD s.patternIndex []) rowsNow colsNow,
             seen := (∅ : Finset (Finset Cell)) }
  else s

/-- Advance the pattern index modulo the catalog size, reseed and clear the
history — the common body of the next-pattern key branch and the terminal
(cycle/extinction) branch of `run`. -/
def advancePattern (s : LoopState) : LoopState :=
  { s with patternIndex := (s.patternIndex + 1) % patterns.length,
           live := seed_pattern (patterns.getD ((s.patternIndex + 1) % patterns.length) [])
             s.rows s.cols,
           seen := (∅ : Finset (Finset Cell)) }

/-- The tail of the loop body of `run`: run the cycle/extinction check; on a
terminal signal advance-and-reseed (the `continue` path), otherwise record
the fingerprint and apply the engine step. -/
def stepOrReseed (s : LoopState) : LoopState :=
  let r := detector_check s.seen s.live
  if r.1 then advancePattern s
  else { s with seen := r.2, live := step s.live s.rows s.cols }

/-- One iteration of the frame loop of `run`: resize check and reseed, draw
(a no-op on the simulation state), quit/next-pattern key handling, the
cycle/extinction check, and otherwise the engine step.  `rowsNow`/`colsNow`
are the polled dimensions and `key` the polled key code for this frame. -/
def frame (s : LoopState) (rowsNow colsNow : Int) (key : Int) : FrameResult :=
  let s1 := resizeStep s rowsNow colsNow
  if key = keyCodeQ ∨ key = keyCodeQU then FrameResult.quit
  else if key = keyCodeN ∨ key = keyCodeNU then
    FrameResult.cont (stepOrReseed (advancePattern s1))
  else FrameResult.cont (stepOrReseed s1)

/-- The live set carried by a frame outcome (empty after a quit). -/
def liveOf (r : FrameResult) : Finset Cell :=
  match r with
  | FrameResult.quit => ∅
  | FrameResult.cont s => s.live

end Orchestrator

/-! ### Fold lemmas for `minList` / `maxList` -/

theorem minList_cons (x y : Int) (l : List Int) :
    minList x (y :: l) = minList (min x y) l := rfl

theorem minList_le_start (x : Int) (l : List Int) : minList x l ≤ x := by
  induction l generalizing x with
  | nil => exact le_refl x
  | cons y l ih =>
    calc minList x (y :: l) = minList (min x y) l := rfl
    _ ≤ min x y := ih _
    _ ≤ x := min_le_left _ _

theorem minList_le_mem (x : Int) (l : List Int) (y : Int) (hy : y ∈ l) :
    minList x l ≤ y := by
  induction l generalizing x with
  | nil => cases hy
  | cons z l ih =>
    rcases List.mem_cons.mp hy with h | h
    · subst h
      calc minList x (y :: l) = minList (min x y) l := rfl
      _ ≤ min x y := minList_le_start _ _
      _ ≤ y := min_le_right _ _
    · exact ih _ h

theorem minList_eq_start_or_mem (x : Int) (l : List Int) :
    minList x l = x ∨ minList x l ∈ l := by
  induction l generalizing x with
  | nil => exact Or.inl rfl
  | cons y l ih =>
    rcases ih (min x y) with h | h
    · rcases min_choice x y with hm | hm
      · exact Or.inl (by rw [minList_cons, h, hm])
      · exact Or.inr (by rw [minList_cons, h, hm]; exact List.mem_cons_self _ _)
    · exact Or.inr (List.mem_cons_of_mem _ h)

theorem minList_map_sub (x k : Int) (l : List Int) :
    minList (x - k) (l.map fun z => z - k) = minList x l - k := by
  induction l generalizing x with
  | nil => rfl
  | cons y l ih =>
    have h : min (x - k) (y - k) = min x y - k := (min_sub_sub_right x y k)
    calc minList (x - k) ((y :: l).map fun z => z - k)
        = minList (min (x - k) (y - k)) (l.map fun z => z - k) := rfl
      _ = minList (min x y - k) (l.map fun z => z - k) := by rw [h]
      _ = minList (min x y) l - k := ih _
      _ = minList x (y :: l) - k := rfl

theorem maxList_cons (x y : Int) (l : List Int) :
    maxList x (y :: l) = maxList (max x y) l := rfl

theorem maxList_start_le (x : Int) (l : List Int) : x ≤ maxList x l := by
  induction l generalizing x with
  | nil => exact le_refl x
  | cons y l ih =>
    calc x ≤ max x y := le_max_left _ _
    _ ≤ maxList (max x y) l := ih _
    _ = maxList x (y :: l) := rfl

theorem maxList_mem_le (x : Int) (l : List Int) (y : Int) (hy : y ∈ l) :
    y ≤ maxList x l := by
  induction l generalizing x with
  | nil => cases hy
  | cons z l ih =>
    rcases List.mem_cons.mp hy with h | h
    · subst h
      calc y ≤ max x y := le_max_right _ _
      _ ≤ maxList (max x y) l := maxList_start_le _ _
      _ = maxList x (y :: l) := rfl
    · exact ih _ h

theorem maxList_eq_start_or_mem (x : Int) (l : List Int) :
    maxList x l = x ∨ maxList x l ∈ l := by
  induction l generalizing x with
  | nil => exact Or.inl rfl
  | cons y l ih =>
    rcases ih (max x y) with h | h
    · rcases max_choice x y with hm | hm
      · exact Or.inl (by rw [maxList_cons, h, hm])
      · exact Or.inr (by rw [maxList_cons, h, hm]; exact List.mem_cons_self _ _)
    · exact Or.inr (List.mem_cons_of_mem _ h)

/-! ### The Moore neighborhood -/

theorem mem_deltas (a b : Int) :
    ((a, b) ∈ deltas) ↔ (¬(a = 0 ∧ b = 0) ∧ a.natAbs ≤ 1 ∧ b.natAbs ≤ 1) := by
  simp only [deltas, List.mem_cons, List.not_mem_nil, or_false, Prod.mk.injEq]
  omega

theorem mem_mooreNeighbors (p q : Cell) :
    q ∈ mooreNeighbors p ↔
      (q ≠ p ∧ (q.1 - p.1).natAbs ≤ 1 ∧ (q.2 - p.2).natAbs ≤ 1) := by
  simp only [mooreNeighbors, List.mem_toFinset, List.mem_map, deltas, List.mem_cons,
    List.not_mem_nil, or_false, Ne, Prod.ext_iff]
  constructor
  · rintro ⟨d, hd, h1, h2⟩
    omega
  · intro h
    refine ⟨(q.1 - p.1, q.2 - p.2), ?_, ?_, ?_⟩ <;> dsimp only <;> omega

theorem filter_adj_eq_inter (live : Finset Cell) (p : Cell) :
    (live.filter fun q => (p.1 - q.1, p.2 - q.2) ∈ deltas) = live ∩ mooreNeighbors p := by
  ext q
  have h : ((p.1 - q.1, p.2 - q.2) ∈ deltas) ↔
      (q ≠ p ∧ (q.1 - p.1).natAbs ≤ 1 ∧ (q.2 - p.2).natAbs ≤ 1) := by
    rw [mem_deltas]
    simp only [Ne, Prod.ext_iff]
    omega
  simp [Finset.mem_filter, Finset.mem_inter, mem_mooreNeighbors, h]

/-! ### Characterization of `step` -/

theorem adj_comm (p q : Cell) :
    ((p.1 - q.1, p.2 - q.2) ∈ deltas) ↔ ((q.1 - p.1, q.2 - p.2) ∈ deltas) := by
  rw [mem_deltas, mem_deltas]
  omega

theorem mem_candidates (live : Finset Cell) (rows cols : Int) (p : Cell) :
    p ∈ candidates live rows cols ↔
      (inBounds rows cols p = true ∧
        ∃ q ∈ live, (p.1 - q.1, p.2 - q.2) ∈ deltas) := by
  simp only [candidates, Finset.mem_biUnion, List.mem_toFinset, List.mem_filter,
    List.mem_map]
  constructor
  · rintro ⟨q, hq, ⟨d, hd, hdp⟩, hb⟩
    refine ⟨hb, q, hq, ?_⟩
    have h1 : q.1 + d.1 = p.1 := congrArg Prod.fst hdp
    have h2 : q.2 + d.2 = p.2 := congrArg Prod.snd hdp
    have : (p.1 - q.1, p.2 - q.2) = d := by
      apply Prod.ext <;> dsimp only <;> omega
    rw [this]
    exact hd
  · rintro ⟨hb, q, hq, hd⟩
    refine ⟨q, hq, ⟨(p.1 - q.1, p.2 - q.2), hd, ?_⟩, hb⟩
    apply Prod.ext <;> dsimp only <;> omega

theorem neighborCount_eq (live : Finset Cell) (rows cols : Int) (p : Cell)
    (hb : inBounds rows cols p = true) :
    neighborCount live rows cols p = (live ∩ mooreNeighbors p).card := by
  rw [neighborCount, if_pos hb, filter_adj_eq_inter]

/-- Membership characterization of the transition function, for arbitrary
live sets (no bounds assumption on the input cells): a position is in the
next generation iff it is in bounds and its Moore-neighbor live count is 3,
or is 2 and it is itself live. -/
theorem mem_step (live : Finset Cell) (rows cols : Int) (p : Cell) :
    p ∈ step live rows cols ↔
      (inBounds rows cols p = true ∧
        ((live ∩ mooreNeighbors p).card = 3 ∨
          ((live ∩ mooreNeighbors p).card = 2 ∧ p ∈ live))) := by
  rw [step, Finset.mem_filter]
  constructor
  · rintro ⟨hc, hrule⟩
    have hb : inBounds rows cols p = true := ((mem_candidates _ _ _ _).mp hc).1
    rw [neighborCount_eq _ _ _ _ hb] at hrule
    exact ⟨hb, hrule⟩
  · rintro ⟨hb, hrule⟩
    have hcardpos : 0 < (live ∩ mooreNeighbors p).card := by
      rcases hrule with h | ⟨h, _⟩ <;> omega
    have hne : ∃ q, q ∈ live ∩ mooreNeighbors p := (Finset.card_pos.mp hcardpos).imp fun _ h => h
    rcases hne with ⟨q, hq⟩
    rw [Finset.mem_inter, mem_mooreNeighbors] at hq
    have hadj : (p.1 - q.1, p.2 - q.2) ∈ deltas := by
      rw [mem_deltas]
      rcases hq with ⟨_, hne', h1, h2⟩
      constructor
      · intro h
        exact hne' (by apply Prod.ext <;> omega)
      · omega
    refine ⟨(mem_candidates _ _ _ _).mpr ⟨hb, q, hq.1, hadj⟩, ?_⟩
    rw [neighborCount_eq _ _ _ _ hb]
    exact hrule

theorem inBounds_iff (rows cols : Int) (p : Cell) :
    inBounds rows cols p = true ↔ (0 ≤ p.1 ∧ p.1 < rows ∧ 0 ≤ p.2 ∧ p.2 < cols) := by
  simp [inBounds]

/-! ### The counts dict built by iterating an enumeration of the live set -/

theorem countP_eq_one_of_nodup_mem {α : Type} [DecidableEq α] (l : List α)
    (hl : l.Nodup) (a : α) (ha : a ∈ l) :
    l.countP (fun d => decide (d = a)) = 1 := by
  induction l with
  | nil => cases ha
  | cons x l ih =>
    rw [List.countP_cons]
    rcases List.mem_cons.mp ha with h | h
    · subst h
      have hnl : a ∉ l := (List.nodup_cons.mp hl).1
      have hz : l.countP (fun d => decide (d = a)) = 0 := by
        rw [List.countP_eq_zero]
        intro d hd
        simp only [decide_eq_true_eq]
        rintro rfl
        exact hnl hd
      simp [hz]
    · have hxa : ¬(x = a) := by
        rintro rfl
        exact (List.nodup_cons.mp hl).1 h
      rw [ih (List.nodup_cons.mp hl).2 h]
      simp [hxa]

theorem foldl_bump_apply (rows cols : Int) (q p : Cell) (ds : List Cell) (f : Cell → Nat) :
    (ds.foldl
        (fun g d =>
          if inBounds rows cols (q.1 + d.1, q.2 + d.2) then
            bump g (q.1 + d.1, q.2 + d.2)
          else g)
        f) p
      = f p + ds.countP (fun d =>
          inBounds rows cols (q.1 + d.1, q.2 + d.2) &&
            decide ((q.1 + d.1, q.2 + d.2) = p)) := by
  induction ds generalizing f with
  | nil => simp
  | cons d ds ih =>
    rw [List.foldl_cons, ih, List.countP_cons]
    by_cases hb : inBounds rows cols (q.1 + d.1, q.2 + d.2) = true
    · rw [if_pos hb]
      by_cases he : (q.1 + d.1, q.2 + d.2) = p
      · have hbump : bump f (q.1 + d.1, q.2 + d.2) p = f p + 1 := by
          rw [bump, if_pos he.symm]
        rw [hbump]
        rw [he] at hb
        simp [hb, he]
        omega
      · have hbump : bump f (q.1 + d.1, q.2 + d.2) p = f p := by
          rw [bump, if_neg (fun h => he h.symm)]
        rw [hbump]
        simp [hb, he]
    · rw [if_neg hb]
      simp [hb]

theorem addCell_apply (rows cols : Int) (f : Cell → Nat) (q p : Cell) :
    addCell rows cols f q p
      = f p +
          (if inBounds rows cols p = true ∧ (p.1 - q.1, p.2 - q.2) ∈ deltas
           then 1 else 0) := by
  rw [addCell, foldl_bump_apply]
  congr 1
  have hcong : deltas.countP (fun d =>
        inBounds rows cols (q.1 + d.1, q.2 + d.2) &&
          decide ((q.1 + d.1, q.2 + d.2) = p))
      = deltas.countP (fun d =>
          decide (d = (p.1 - q.1, p.2 - q.2)) && inBounds rows cols p) := by
    apply List.countP_congr
    intro d _
    by_cases he : (q.1 + d.1, q.2 + d.2) = p
    · have hd : d = (p.1 - q.1, p.2 - q.2) := by
        have h1 : q.1 + d.1 = p.1 := congrArg Prod.fst he
        have h2 : q.2 + d.2 = p.2 := congrArg Prod.snd he
        apply Prod.ext <;> dsimp only <;> omega
      simp [he, hd]
    · have hd : d ≠ (p.1 - q.1, p.2 - q.2) := by
        intro h
        apply he
        have h1 : d.1 = p.1 - q.1 := congrArg Prod.fst h
        have h2 : d.2 = p.2 - q.2 := congrArg Prod.snd h
        apply Prod.ext <;> dsimp only <;> omega
      simp [he, hd]
  rw [hcong]
  by_cases hb : inBounds rows cols p = true
  · by_cases hd0 : ((p.1 - q.1, p.2 - q.2) ∈ deltas)
    · rw [if_pos ⟨hb, hd0⟩]
      simp only [hb, Bool.and_true]
      exact countP_eq_one_of_nodup_mem deltas (by decide) _ hd0
    · rw [if_neg (fun h => hd0 h.2)]
      simp only [hb, Bool.and_true]
      rw [List.countP_eq_zero]
      intro d hd
      simp only [decide_eq_true_eq]
      rintro rfl
      exact hd0 hd
  · rw [if_neg (fun h => hb h.1)]
    simp [hb]

theorem foldl_addCell_apply (rows cols : Int) (l : List Cell) (f : Cell → Nat) (p : Cell) :
    (l.foldl (addCell rows cols) f) p
      = f p + l.countP (fun q =>
          inBounds rows cols p && decide ((p.1 - q.1, p.2 - q.2) ∈ deltas)) := by
  induction l generalizing f with
  | nil => simp
  | cons q l ih =>
    rw [List.foldl_cons, ih, List.countP_cons, addCell_apply]
    by_cases h1 : inBounds rows cols p = true <;>
      by_cases h2 : ((p.1 - q.1, p.2 - q.2) ∈ deltas) <;>
        simp [h1, h2]
    omega

/-- The value the counts dict of `step` assigns to a position depends only
on how many enumerated live cells are adjacent to it, never on the order of
iteration. -/
theorem countsOf_apply (l : List Cell) (rows cols : Int) (p : Cell) :
    countsOf l rows cols p
      = if inBounds rows cols p = true
        then l.countP (fun q => decide ((p.1 - q.1, p.2 - q.2) ∈ deltas))
        else 0 := by
  rw [countsOf, foldl_addCell_apply]
  by_cases hb : inBounds rows cols p = true <;> simp [hb]

theorem countP_toFinset_card (l : List Cell) (hl : l.Nodup) (pr : Cell → Bool) :
    l.countP pr = (l.toFinset.filter fun q => pr q = true).card := by
  rw [List.countP_eq_length_filter]
  have h1 : (l.filter pr).toFinset = l.toFinset.filter fun q => pr q = true := by
    rw [List.toFinset_filter]
  rw [← List.toFinset_card_of_nodup (hl.filter pr), h1]

theorem countsOf_eq_neighborCount (l : List Cell) (rows cols : Int) (hl : l.Nodup)
    (p : Cell) :
    countsOf l rows cols p = neighborCount l.toFinset rows cols p := by
  rw [countsOf_apply, neighborCount]
  by_cases hb : inBounds rows cols p = true
  · rw [if_pos hb, if_pos hb, countP_toFinset_card l hl]
    congr 1
    ext q
    simp
  · rw [if_neg hb, if_neg hb]

theorem candidatesList_toFinset (l : List Cell) (rows cols : Int) :
    (candidatesList l rows cols).toFinset = candidates l.toFinset rows cols := by
  ext p
  rw [mem_candidates]
  simp only [candidatesList, List.mem_toFinset, List.mem_flatMap, List.mem_filter,
    List.mem_map]
  constructor
  · rintro ⟨q, hq, ⟨d, hd, hdp⟩, hb⟩
    refine ⟨hb, q, hq, ?_⟩
    have h1 : q.1 + d.1 = p.1 := congrArg Prod.fst hdp
    have h2 : q.2 + d.2 = p.2 := congrArg Prod.snd hdp
    have hde : (p.1 - q.1, p.2 - q.2) = d := by
      apply Prod.ext <;> dsimp only <;> omega
    rw [hde]
    exact hd
  · rintro ⟨hb, q, hq, hd⟩
    refine ⟨q, hq, ⟨(p.1 - q.1, p.2 - q.2), hd, ?_⟩, hb⟩
    apply Prod.ext <;> dsimp only <;> omega

/-- Running the literal Python loops on any duplicate-free enumeration of the
live set computes exactly the set-level transition function. -/
theorem stepList_eq_step (l : List Cell) (rows cols : Int) (hl : l.Nodup) :
    stepList l rows cols = step l.toFinset rows cols := by
  rw [stepList, step, candidatesList_toFinset]
  apply Finset.filter_congr
  intro p _
  rw [countsOf_eq_neighborCount l rows cols hl p]
  simp

/-! ### Normalization and seeding -/

theorem minList_spec (x : Int) (l : List Int) :
    (∀ y ∈ x :: l, minList x l ≤ y) ∧ minList x l ∈ x :: l := by
  constructor
  · intro y hy
    rcases List.mem_cons.mp hy with h | h
    · rw [h]
      exact minList_le_start x l
    · exact minList_le_mem x l y h
  · rcases minList_eq_start_or_mem x l with h | h
    · rw [h]
      exact List.mem_cons_self _ _
    · exact List.mem_cons_of_mem _ h

theorem maxList_spec (x : Int) (l : List Int) :
    (∀ y ∈ x :: l, y ≤ maxList x l) ∧ maxList x l ∈ x :: l := by
  constructor
  · intro y hy
    rcases List.mem_cons.mp hy with h | h
    · rw [h]
      exact maxList_start_le x l
    · exact maxList_mem_le x l y h
  · rcases maxList_eq_start_or_mem x l with h | h
    · rw [h]
      exact List.mem_cons_self _ _
    · exact List.mem_cons_of_mem _ h

theorem normalize_cells_cons (c : Cell) (cs : List Cell) :
    normalize_cells (c :: cs) =
      (c :: cs).map fun p =>
        (p.1 - minList c.1 (cs.map Prod.fst), p.2 - minList c.2 (cs.map Prod.snd)) := rfl

theorem normalize_cells_eq_nil_iff (cells : List Cell) :
    normalize_cells cells = [] ↔ cells = [] := by
  cases cells with
  | nil => simp [normalize_cells]
  | cons c cs => simp [normalize_cells_cons]

theorem normalize_cells_nonneg (cells : List Cell) :
    ∀ q ∈ normalize_cells cells, 0 ≤ q.1 ∧ 0 ≤ q.2 := by
  cases cells with
  | nil => intro q hq; cases hq
  | cons c cs =>
    intro q hq
    rw [normalize_cells_cons] at hq
    rcases List.mem_map.mp hq with ⟨p, hp, hpq⟩
    have h1 : minList c.1 (cs.map Prod.fst) ≤ p.1 := by
      apply (minList_spec c.1 (cs.map Prod.fst)).1
      rcases List.mem_cons.mp hp with h | h
      · rw [h]
        exact List.mem_cons_self _ _
      · exact List.mem_cons_of_mem _ (List.mem_map_of_mem Prod.fst h)
    have h2 : minList c.2 (cs.map Prod.snd) ≤ p.2 := by
      apply (minList_spec c.2 (cs.map Prod.snd)).1
      rcases List.mem_cons.mp hp with h | h
      · rw [h]
        exact List.mem_cons_self _ _
      · exact List.mem_cons_of_mem _ (List.mem_map_of_mem Prod.snd h)
    have hq1 : q.1 = p.1 - minList c.1 (cs.map Prod.fst) := (congrArg Prod.fst hpq).symm
    have hq2 : q.2 = p.2 - minList c.2 (cs.map Prod.snd) := (congrArg Prod.snd hpq).symm
    omega

theorem seed_pattern_def (cells : List Cell) (rows cols : Int) :
    seed_pattern cells rows cols =
      match normalize_cells cells with
      | [] => ∅
      | c :: cs =>
        (((c :: cs).map fun p =>
            (p.1 + max 0 (Int.fdiv (rows - (maxList c.1 (cs.map Prod.fst) + 1)) 2),
             p.2 + max 0 (Int.fdiv (cols - (maxList c.2 (cs.map Prod.snd) + 1)) 2))) :
          List Cell).toFinset.filter fun p => inBounds rows cols p := rfl

theorem toFinset_map_image (l : List Cell) (f : Cell → Cell) :
    (l.map f).toFinset = l.toFinset.image f := by
  ext q
  simp

theorem getD_map_lt (l : List Cell) (f : Cell → Cell) (i : Nat) (hi : i < l.length) :
    (l.map f).getD i (0, 0) = f (l.getD i (0, 0)) := by
  rw [List.getD_eq_getElem?_getD, List.getD_eq_getElem?_getD, List.getElem?_map,
    List.getElem?_eq_getElem hi]
  rfl

/-- C5: `normalize_cells` shifts every cell of a non-empty list by
`(-min_row, -min_col)`, making the minimum row and column of the result
exactly 0 (also for negative inputs), and maps the empty list to the empty
list. -/
theorem normalize_cells_shifts_to_zero (cells : List Cell) :
    normalize_cells ([] : List Cell) = []
    ∧ (cells ≠ [] →
        ∃ mr mc : Int,
          (∀ q ∈ cells, mr ≤ q.1 ∧ mc ≤ q.2)
          ∧ ((∃ q ∈ cells, q.1 = mr) ∧ (∃ q ∈ cells, q.2 = mc))
          ∧ normalize_cells cells = cells.map (fun q => (q.1 - mr, q.2 - mc))
          ∧ (∀ q ∈ normalize_cells cells, 0 ≤ q.1 ∧ 0 ≤ q.2)
          ∧ ((∃ q ∈ normalize_cells cells, q.1 = 0)
              ∧ (∃ q ∈ normalize_cells cells, q.2 = 0))) := by
  refine ⟨rfl, fun hne => ?_⟩
  cases cells with
  | nil => exact absurd rfl hne
  | cons c cs =>
    refine ⟨minList c.1 (cs.map Prod.fst), minList c.2 (cs.map Prod.snd), ?_, ⟨?_, ?_⟩,
      normalize_cells_cons c cs, normalize_cells_nonneg (c :: cs), ?_, ?_⟩
    · intro q hq
      constructor
      · apply (minList_spec c.1 (cs.map Prod.fst)).1
        rcases List.mem_cons.mp hq with h | h
        · rw [h]; exact List.mem_cons_self _ _
        · exact List.mem_cons_of_mem _ (List.mem_map_of_mem Prod.fst h)
      · apply (minList_spec c.2 (cs.map Prod.snd)).1
        rcases List.mem_cons.mp hq with h | h
        · rw [h]; exact List.mem_cons_self _ _
        · exact List.mem_cons_of_mem _ (List.mem_map_of_mem Prod.snd h)
    · rcases List.mem_cons.mp (minList_spec c.1 (cs.map Prod.fst)).2 with h | h
      · exact ⟨c, List.mem_cons_self _ _, h.symm⟩
      · rcases List.mem_map.mp h with ⟨q, hq, hq1⟩
        exact ⟨q, List.mem_cons_of_mem _ hq, hq1.symm ▸ rfl⟩
    · rcases List.mem_cons.mp (minList_spec c.2 (cs.map Prod.snd)).2 with h | h
      · exact ⟨c, List.mem_cons_self _ _, h.symm⟩
      · rcases List.mem_map.mp h with ⟨q, hq, hq2⟩
        exact ⟨q, List.mem_cons_of_mem _ hq, hq2.symm ▸ rfl⟩
    · rcases List.mem_cons.mp (minList_spec c.1 (cs.map Prod.fst)).2 with h | h
      · refine ⟨(c.1 - minList c.1 (cs.map Prod.fst), c.2 - minList c.2 (cs.map Prod.snd)),
          ?_, by dsimp only; omega⟩
        rw [normalize_cells_cons]
        exact List.mem_map_of_mem _ (List.mem_cons_self _ _)
      · rcases List.mem_map.mp h with ⟨q, hq, hq1⟩
        refine ⟨(q.1 - minList c.1 (cs.map Prod.fst), q.2 - minList c.2 (cs.map Prod.snd)),
          ?_, by dsimp only; omega⟩
        rw [normalize_cells_cons]
        exact List.mem_map_of_mem _ (List.mem_cons_of_mem _ hq)
    · rcases List.mem_cons.mp (minList_spec c.2 (cs.map Prod.snd)).2 with h | h
      · refine ⟨(c.1 - minList c.1 (cs.map Prod.fst), c.2 - minList c.2 (cs.map Prod.snd)),
          ?_, by dsimp only; omega⟩
        rw [normalize_cells_cons]
        exact List.mem_map_of_mem _ (List.mem_cons_self _ _)
      · rcases List.mem_map.mp h with ⟨q, hq, hq2⟩
        refine ⟨(q.1 - minList c.1 (cs.map Prod.fst), q.2 - minList c.2 (cs.map Prod.snd)),
          ?_, by dsimp only; omega⟩
        rw [normalize_cells_cons]
        exact List.mem_map_of_mem _ (List.mem_cons_of_mem _ hq)

/-- Witness for C5 at a concrete non-empty input with negative coordinates. -/
theorem normalize_cells_shifts_to_zero_witness :
    ([((2 : Int), (-3 : Int)), ((5 : Int), (7 : Int))] ≠ ([] : List Cell))
    ∧ ∃ mr mc : Int,
        (∀ q ∈ [((2 : Int), (-3 : Int)), ((5 : Int), (7 : Int))], mr ≤ q.1 ∧ mc ≤ q.2)
        ∧ ((∃ q ∈ [((2 : Int), (-3 : Int)), ((5 : Int), (7 : Int))], q.1 = mr)
            ∧ (∃ q ∈ [((2 : Int), (-3 : Int)), ((5 : Int), (7 : Int))], q.2 = mc))
        ∧ normalize_cells [((2 : Int), (-3 : Int)), ((5 : Int), (7 : Int))]
            = [((2 : Int), (-3 : Int)), ((5 : Int), (7 : Int))].map
                (fun q => (q.1 - mr, q.2 - mc))
        ∧ (∀ q ∈ normalize_cells [((2 : Int), (-3 : Int)), ((5 : Int), (7 : Int))],
            0 ≤ q.1 ∧ 0 ≤ q.2)
        ∧ ((∃ q ∈ normalize_cells [((2 : Int), (-3 : Int)), ((5 : Int), (7 : Int))], q.1 = 0)
            ∧ (∃ q ∈ normalize_cells [((2 : Int), (-3 : Int)), ((5 : Int), (7 : Int))],
                q.2 = 0)) :=
  ⟨by decide,
    (normalize_cells_shifts_to_zero
      [((2 : Int), (-3 : Int)), ((5 : Int), (7 : Int))]).2 (by decide)⟩

theorem normalize_cells_attains_zero (c : Cell) (cs : List Cell) :
    (∃ q ∈ normalize_cells (c :: cs), q.1 = 0)
      ∧ (∃ q ∈ normalize_cells (c :: cs), q.2 = 0) := by
  constructor
  · rcases List.mem_cons.mp (minList_spec c.1 (cs.map Prod.fst)).2 with h | h
    · refine ⟨(c.1 - minList c.1 (cs.map Prod.fst), c.2 - minList c.2 (cs.map Prod.snd)),
        ?_, by dsimp only; omega⟩
      rw [normalize_cells_cons]
      exact List.mem_map_of_mem _ (List.mem_cons_self _ _)
    · rcases List.mem_map.mp h with ⟨q, hq, hq1⟩
      refine ⟨(q.1 - minList c.1 (cs.map Prod.fst), q.2 - minList c.2 (cs.map Prod.snd)),
        ?_, by dsimp only; omega⟩
      rw [normalize_cells_cons]
      exact List.mem_map_of_mem _ (List.mem_cons_of_mem _ hq)
  · rcases List.mem_cons.mp (minList_spec c.2 (cs.map Prod.snd)).2 with h | h
    · refine ⟨(c.1 - minList c.1 (cs.map Prod.fst), c.2 - minList c.2 (cs.map Prod.snd)),
        ?_, by dsimp only; omega⟩
      rw [normalize_cells_cons]
      exact List.mem_map_of_mem _ (List.mem_cons_self _ _)
    · rcases List.mem_map.mp h with ⟨q, hq, hq2⟩
      refine ⟨(q.1 - minList c.1 (cs.map Prod.fst), q.2 - minList c.2 (cs.map Prod.snd)),
        ?_, by dsimp only; omega⟩
      rw [normalize_cells_cons]
      exact List.mem_map_of_mem _ (List.mem_cons_of_mem _ hq)

theorem normalize_cells_idem (cells : List Cell) :
    normalize_cells (normalize_cells cells) = normalize_cells cells := by
  cases cells with
  | nil => rfl
  | cons c cs =>
    obtain ⟨q1, hq1, hq1z⟩ := (normalize_cells_attains_zero c cs).1
    obtain ⟨q2, hq2, hq2z⟩ := (normalize_cells_attains_zero c cs).2
    have hnn := normalize_cells_nonneg (c :: cs)
    cases hn : normalize_cells (c :: cs) with
    | nil => rfl
    | cons d ds =>
      rw [normalize_cells_cons d ds]
      have hmem : ∀ y ∈ d.1 :: ds.map Prod.fst, ∃ q ∈ d :: ds, q.1 = y := by
        intro y hy
        rcases List.mem_cons.mp hy with h | h
        · exact ⟨d, List.mem_cons_self _ _, h.symm⟩
        · rcases List.mem_map.mp h with ⟨q, hq, hqy⟩
          exact ⟨q, List.mem_cons_of_mem _ hq, hqy⟩
      have hmem2 : ∀ y ∈ d.2 :: ds.map Prod.snd, ∃ q ∈ d :: ds, q.2 = y := by
        intro y hy
        rcases List.mem_cons.mp hy with h | h
        · exact ⟨d, List.mem_cons_self _ _, h.symm⟩
        · rcases List.mem_map.mp h with ⟨q, hq, hqy⟩
          exact ⟨q, List.mem_cons_of_mem _ hq, hqy⟩
      have hd1 : minList d.1 (ds.map Prod.fst) = 0 := by
        apply le_antisymm
        · rw [hn] at hq1
          have hy : q1.1 ∈ d.1 :: ds.map Prod.fst := by
            rcases List.mem_cons.mp hq1 with h | h
            · rw [h]; exact List.mem_cons_self _ _
            · exact List.mem_cons_of_mem _ (List.mem_map_of_mem Prod.fst h)
          calc minList d.1 (ds.map Prod.fst) ≤ q1.1 :=
                (minList_spec d.1 (ds.map Prod.fst)).1 _ hy
          _ = 0 := hq1z
        · rcases hmem _ (minList_spec d.1 (ds.map Prod.fst)).2 with ⟨q, hq, hqe⟩
          rw [← hqe]
          exact (hnn q (hn ▸ hq)).1
      have hd2 : minList d.2 (ds.map Prod.snd) = 0 := by
        apply le_antisymm
        · rw [hn] at hq2
          have hy : q2.2 ∈ d.2 :: ds.map Prod.snd := by
            rcases List.mem_cons.mp hq2 with h | h
            · rw [h]; exact List.mem_cons_self _ _
            · exact List.mem_cons_of_mem _ (List.mem_map_of_mem Prod.snd h)
          calc minList d.2 (ds.map Prod.snd) ≤ q2.2 :=
                (minList_spec d.2 (ds.map Prod.snd)).1 _ hy
          _ = 0 := hq2z
        · rcases hmem2 _ (minList_spec d.2 (ds.map Prod.snd)).2 with ⟨q, hq, hqe⟩
          rw [← hqe]
          exact (hnn q (hn ▸ hq)).2
      rw [hd1, hd2]
      simp

/-- C9: `normalize_cells` is idempotent, preserves the cell count, and
preserves all pairwise coordinate differences. -/
theorem normalize_cells_algebraic (cells : List Cell) :
    normalize_cells (normalize_cells cells) = normalize_cells cells
    ∧ (normalize_cells cells).length = cells.length
    ∧ (∀ i j : Nat, i < cells.length → j < cells.length →
        (((normalize_cells cells).getD i (0, 0)).1
              - ((normalize_cells cells).getD j (0, 0)).1
            = (cells.getD i (0, 0)).1 - (cells.getD j (0, 0)).1)
          ∧ (((normalize_cells cells).getD i (0, 0)).2
              - ((normalize_cells cells).getD j (0, 0)).2
            = (cells.getD i (0, 0)).2 - (cells.getD j (0, 0)).2)) := by
  refine ⟨normalize_cells_idem cells, ?_, ?_⟩
  · cases cells with
    | nil => rfl
    | cons c cs => rw [normalize_cells_cons, List.length_map]
  · intro i j hi hj
    cases cells with
    | nil => cases hi
    | cons c cs =>
      rw [normalize_cells_cons, getD_map_lt _ _ i hi, getD_map_lt _ _ j hj]
      dsimp only
      omega

/-- Witness for C9 at a concrete index pair. -/
theorem normalize_cells_algebraic_witness :
    ((0 : Nat) < ([((2 : Int), (-3 : Int)), ((5 : Int), (7 : Int))] : List Cell).length)
    ∧ ((1 : Nat) < ([((2 : Int), (-3 : Int)), ((5 : Int), (7 : Int))] : List Cell).length)
    ∧ ((normalize_cells [((2 : Int), (-3 : Int)), ((5 : Int), (7 : Int))]).getD 0 (0, 0)).1
          - ((normalize_cells [((2 : Int), (-3 : Int)), ((5 : Int), (7 : Int))]).getD 1 (0, 0)).1
        = (([((2 : Int), (-3 : Int)), ((5 : Int), (7 : Int))] : List Cell).getD 0 (0, 0)).1
          - (([((2 : Int), (-3 : Int)), ((5 : Int), (7 : Int))] : List Cell).getD 1 (0, 0)).1 :=
  ⟨by decide, by decide,
    ((normalize_cells_algebraic [((2 : Int), (-3 : Int)), ((5 : Int), (7 : Int))]).2.2
      0 1 (by decide) (by decide)).1⟩

theorem seed_pattern_of_norm_nil (cells : List Cell) (rows cols : Int)
    (h : normalize_cells cells = []) : seed_pattern cells rows cols = ∅ := by
  rw [seed_pattern_def, h]

theorem seed_pattern_of_norm_cons (cells : List Cell) (rows cols : Int) (c : Cell)
    (cs : List Cell) (h : normalize_cells cells = c :: cs) :
    seed_pattern cells rows cols =
      (((c :: cs).map fun p =>
          (p.1 + max 0 (Int.fdiv (rows - (maxList c.1 (cs.map Prod.fst) + 1)) 2),
           p.2 + max 0 (Int.fdiv (cols - (maxList c.2 (cs.map Prod.snd) + 1)) 2))) :
        List Cell).toFinset.filter fun p => inBounds rows cols p := by
  rw [seed_pattern_def, h]

theorem offset_le (a : Int) (h : 0 ≤ a) : max 0 (Int.fdiv a 2) ≤ a := by
  apply max_le h
  rw [Int.fdiv_eq_ediv a (by norm_num : (0 : Int) ≤ 2)]
  exact Int.ediv_le_self 2 h

theorem translate_injective (a b : Int) :
    Function.Injective fun q : Cell => (q.1 + a, q.2 + b) := by
  intro x y h
  have h1 : x.1 + a = y.1 + a := congrArg Prod.fst h
  have h2 : x.2 + b = y.2 + b := congrArg Prod.snd h
  apply Prod.ext <;> omega

theorem shift_injective (a b : Int) :
    Function.Injective fun q : Cell => (q.1 - a, q.2 - b) := by
  intro x y h
  have h1 : x.1 - a = y.1 - a := congrArg Prod.fst h
  have h2 : x.2 - b = y.2 - b := congrArg Prod.snd h
  apply Prod.ext <;> omega

/-- C4: `seed_pattern` normalizes, centers by the floor-division offsets over
the normalized bounding box, and keeps exactly the in-bounds translated
cells; a pattern whose bounding box fits the board keeps its full
distinct-cell count, and a zero-sized board always seeds empty. -/
theorem seed_pattern_centers_and_clips (cells : List Cell) (rows cols : Int) :
    (∀ p ∈ seed_pattern cells rows cols, inBounds rows cols p = true)
    ∧ (rows = 0 ∨ cols = 0 → seed_pattern cells rows cols = ∅)
    ∧ (∀ c cs, normalize_cells cells = c :: cs →
        seed_pattern cells rows cols =
          (((c :: cs).map fun p =>
              (p.1 + max 0 (Int.fdiv (rows - (maxList c.1 (cs.map Prod.fst) + 1)) 2),
               p.2 + max 0 (Int.fdiv (cols - (maxList c.2 (cs.map Prod.snd) + 1)) 2))) :
            List Cell).toFinset.filter fun p => inBounds rows cols p)
    ∧ ((∀ q ∈ normalize_cells cells, q.1 < rows ∧ q.2 < cols) →
        (seed_pattern cells rows cols).card = cells.toFinset.card) := by
  have hbound : ∀ p ∈ seed_pattern cells rows cols, inBounds rows cols p = true := by
    intro p hp
    rcases hnc : normalize_cells cells with _ | ⟨c, cs⟩
    · rw [seed_pattern_of_norm_nil _ _ _ hnc] at hp
      exact absurd hp (Finset.not_mem_empty p)
    · rw [seed_pattern_of_norm_cons _ _ _ _ _ hnc] at hp
      exact (Finset.mem_filter.mp hp).2
  refine ⟨hbound, ?_, fun c cs h => seed_pattern_of_norm_cons _ _ _ _ _ h, ?_⟩
  · intro hz
    apply Finset.eq_empty_of_forall_not_mem
    intro p hp
    have hb := (inBounds_iff rows cols p).mp (hbound p hp)
    omega
  · intro hfits
    rcases hnc : normalize_cells cells with _ | ⟨c, cs⟩
    · have hcn : cells = [] := (normalize_cells_eq_nil_iff cells).mp hnc
      rw [seed_pattern_of_norm_nil _ _ _ hnc, hcn]
      simp
    · rw [seed_pattern_of_norm_cons _ _ _ _ _ hnc]
      rw [hnc] at hfits
      have hnn : ∀ q ∈ c :: cs, 0 ≤ q.1 ∧ 0 ≤ q.2 := by
        intro q hq
        exact normalize_cells_nonneg cells q (hnc ▸ hq)
      have hmemf : ∀ y ∈ c.1 :: cs.map Prod.fst, ∃ q ∈ c :: cs, q.1 = y := by
        intro y hy
        rcases List.mem_cons.mp hy with h | h
        · exact ⟨c, List.mem_cons_self _ _, h.symm⟩
        · rcases List.mem_map.mp h with ⟨q, hq, hqy⟩
          exact ⟨q, List.mem_cons_of_mem _ hq, hqy⟩
      have hmems : ∀ y ∈ c.2 :: cs.map Prod.snd, ∃ q ∈ c :: cs, q.2 = y := by
        intro y hy
        rcases List.mem_cons.mp hy with h | h
        · exact ⟨c, List.mem_cons_self _ _, h.symm⟩
        · rcases List.mem_map.mp h with ⟨q, hq, hqy⟩
          exact ⟨q, List.mem_cons_of_mem _ hq, hqy⟩
      have hmaxr : maxList c.1 (cs.map Prod.fst) < rows := by
        rcases hmemf _ (maxList_spec c.1 (cs.map Prod.fst)).2 with ⟨q, hq, hqe⟩
        rw [← hqe]
        exact (hfits q hq).1
      have hmaxc : maxList c.2 (cs.map Prod.snd) < cols := by
        rcases hmems _ (maxList_spec c.2 (cs.map Prod.snd)).2 with ⟨q, hq, hqe⟩
        rw [← hqe]
        exact (hfits q hq).2
      have hoffR := offset_le (rows - (maxList c.1 (cs.map Prod.fst) + 1)) (by omega)
      have hoffC := offset_le (cols - (maxList c.2 (cs.map Prod.snd) + 1)) (by omega)
      have hoffRz : (0 : Int) ≤ max 0 (Int.fdiv (rows - (maxList c.1 (cs.map Prod.fst) + 1)) 2) :=
        le_max_left _ _
      have hoffCz : (0 : Int) ≤ max 0 (Int.fdiv (cols - (maxList c.2 (cs.map Prod.snd) + 1)) 2) :=
        le_max_left _ _
      have hall : ∀ p ∈ (((c :: cs).map fun q =>
          (q.1 + max 0 (Int.fdiv (rows - (maxList c.1 (cs.map Prod.fst) + 1)) 2),
           q.2 + max 0 (Int.fdiv (cols - (maxList c.2 (cs.map Prod.snd) + 1)) 2))) :
            List Cell).toFinset, inBounds rows cols p = true := by
        intro p hp
        rw [List.mem_toFinset] at hp
        rcases List.mem_map.mp hp with ⟨q, hq, hqp⟩
        have h1 := hnn q hq
        have h2 : q.1 ≤ maxList c.1 (cs.map Prod.fst) := by
          apply (maxList_spec c.1 (cs.map Prod.fst)).1
          rcases List.mem_cons.mp hq with h | h
          · rw [h]; exact List.mem_cons_self _ _
          · exact List.mem_cons_of_mem _ (List.mem_map_of_mem Prod.fst h)
        have h3 : q.2 ≤ maxList c.2 (cs.map Prod.snd) := by
          apply (maxList_spec c.2 (cs.map Prod.snd)).1
          rcases List.mem_cons.mp hq with h | h
          · rw [h]; exact List.mem_cons_self _ _
          · exact List.mem_cons_of_mem _ (List.mem_map_of_mem Prod.snd h)
        have hp1 : p.1 = q.1 + max 0 (Int.fdiv (rows - (maxList c.1 (cs.map Prod.fst) + 1)) 2) :=
          (congrArg Prod.fst hqp).symm
        have hp2 : p.2 = q.2 + max 0 (Int.fdiv (cols - (maxList c.2 (cs.map Prod.snd) + 1)) 2) :=
          (congrArg Prod.snd hqp).symm
        rw [inBounds_iff]
        omega
      rw [Finset.filter_true_of_mem hall, toFinset_map_image,
        Finset.card_image_of_injective _ (translate_injective _ _)]
      have hne : cells ≠ [] := by
        intro h
        rw [h] at hnc
        exact List.cons_ne_nil c cs hnc.symm
      cases cells with
      | nil => exact absurd rfl hne
      | cons c0 cs0 =>
        rw [← hnc, normalize_cells_cons c0 cs0, toFinset_map_image,
          Finset.card_image_of_injective _ (shift_injective _ _)]

/-- Witness for C4 at the blinker pattern on a 10 by 10 board (and a
zero-row board for the empty case). -/
theorem seed_pattern_centers_and_clips_witness :
    inBounds 10 10 ((4 : Int), (4 : Int)) = true
    ∧ seed_pattern [((5 : Int), (4 : Int)), ((5 : Int), (5 : Int)), ((5 : Int), (6 : Int))] 0 10 = ∅
    ∧ (seed_pattern [((5 : Int), (4 : Int)), ((5 : Int), (5 : Int)), ((5 : Int), (6 : Int))] 10 10).card
        = ([((5 : Int), (4 : Int)), ((5 : Int), (5 : Int)), ((5 : Int), (6 : Int))] : List Cell).toFinset.card :=
  ⟨(seed_pattern_centers_and_clips
        [((5 : Int), (4 : Int)), ((5 : Int), (5 : Int)), ((5 : Int), (6 : Int))] 10 10).1
      ((4 : Int), (4 : Int)) (by decide),
    (seed_pattern_centers_and_clips
        [((5 : Int), (4 : Int)), ((5 : Int), (5 : Int)), ((5 : Int), (6 : Int))] 0 10).2.1
      (Or.inl rfl),
    (seed_pattern_centers_and_clips
        [((5 : Int), (4 : Int)), ((5 : Int), (5 : Int)), ((5 : Int), (6 : Int))] 10 10).2.2.2
      (by decide)⟩

set_option maxRecDepth 100000

/-- C1: for a live set lying inside the board, the next generation holds a
position exactly when it is in bounds and its count of live Moore neighbors
is 3, or is 2 and the position is itself live; `mooreNeighbors` is exactly
the 8-cell Moore neighborhood. -/
theorem step_conway_rule (live : Finset Cell) (rows cols : Int)
    (_hlive : ∀ q ∈ live, inBounds rows cols q = true) (p q : Cell) :
    (p ∈ step live rows cols ↔
      inBounds rows cols p = true ∧
        ((live ∩ mooreNeighbors p).card = 3 ∨
          ((live ∩ mooreNeighbors p).card = 2 ∧ p ∈ live)))
    ∧ (q ∈ mooreNeighbors p ↔
        (q ≠ p ∧ (q.1 - p.1).natAbs ≤ 1 ∧ (q.2 - p.2).natAbs ≤ 1)) :=
  ⟨mem_step live rows cols p, mem_mooreNeighbors p q⟩

/-- Witness for C1 on the blinker. -/
theorem step_conway_rule_witness :
    (∀ c ∈ ({((5 : Int), (4 : Int)), ((5 : Int), (5 : Int)), ((5 : Int), (6 : Int))} : Finset Cell),
        inBounds 10 10 c = true)
    ∧ (((4 : Int), (5 : Int)) ∈
          step ({((5 : Int), (4 : Int)), ((5 : Int), (5 : Int)), ((5 : Int), (6 : Int))} : Finset Cell) 10 10 ↔
        inBounds 10 10 ((4 : Int), (5 : Int)) = true ∧
          ((({((5 : Int), (4 : Int)), ((5 : Int), (5 : Int)), ((5 : Int), (6 : Int))} : Finset Cell)
                ∩ mooreNeighbors ((4 : Int), (5 : Int))).card = 3 ∨
            ((({((5 : Int), (4 : Int)), ((5 : Int), (5 : Int)), ((5 : Int), (6 : Int))} : Finset Cell)
                  ∩ mooreNeighbors ((4 : Int), (5 : Int))).card = 2 ∧
              ((4 : Int), (5 : Int)) ∈
                ({((5 : Int), (4 : Int)), ((5 : Int), (5 : Int)), ((5 : Int), (6 : Int))} : Finset Cell))))
    ∧ (((5 : Int), (5 : Int)) ∈ mooreNeighbors ((4 : Int), (5 : Int)) ↔
        (((5 : Int), (5 : Int)) ≠ ((4 : Int), (5 : Int))
          ∧ ((5 : Int) - (4 : Int)).natAbs ≤ 1 ∧ ((5 : Int) - (5 : Int)).natAbs ≤ 1)) :=
  ⟨by decide,
    (step_conway_rule ({((5 : Int), (4 : Int)), ((5 : Int), (5 : Int)), ((5 : Int), (6 : Int))} : Finset Cell)
        10 10 (by decide) ((4 : Int), (5 : Int)) ((5 : Int), (5 : Int))).1,
    (step_conway_rule ({((5 : Int), (4 : Int)), ((5 : Int), (5 : Int)), ((5 : Int), (6 : Int))} : Finset Cell)
        10 10 (by decide) ((4 : Int), (5 : Int)) ((5 : Int), (5 : Int))).2⟩

/-- C6: the horizontal blinker on a 10 by 10 board steps to the vertical
form and back. -/
theorem blinker_oscillates :
    step ({((5 : Int), (4 : Int)), ((5 : Int), (5 : Int)), ((5 : Int), (6 : Int))} : Finset Cell) 10 10
        = ({((4 : Int), (5 : Int)), ((5 : Int), (5 : Int)), ((6 : Int), (5 : Int))} : Finset Cell)
    ∧ step (step ({((5 : Int), (4 : Int)), ((5 : Int), (5 : Int)), ((5 : Int), (6 : Int))} : Finset Cell) 10 10) 10 10
        = ({((5 : Int), (4 : Int)), ((5 : Int), (5 : Int)), ((5 : Int), (6 : Int))} : Finset Cell) :=
  ⟨by decide, by decide⟩

/-- C7: running the literal iteration-order-sensitive translation of `step`
on two duplicate-free enumerations of the same live set gives the same next
generation: the result does not depend on the set's enumeration order. -/
theorem step_enumeration_order_independent (l1 l2 : List Cell) (rows cols : Int)
    (h1 : l1.Nodup) (h2 : l2.Nodup) (h12 : l1.toFinset = l2.toFinset) :
    stepList l1 rows cols = stepList l2 rows cols := by
  rw [stepList_eq_step l1 rows cols h1, stepList_eq_step l2 rows cols h2, h12]

/-- Witness for C7 on two orderings of the blinker. -/
theorem step_enumeration_order_independent_witness :
    ([((5 : Int), (4 : Int)), ((5 : Int), (5 : Int)), ((5 : Int), (6 : Int))] : List Cell).Nodup
    ∧ ([((5 : Int), (6 : Int)), ((5 : Int), (4 : Int)), ((5 : Int), (5 : Int))] : List Cell).Nodup
    ∧ ([((5 : Int), (4 : Int)), ((5 : Int), (5 : Int)), ((5 : Int), (6 : Int))] : List Cell).toFinset
        = ([((5 : Int), (6 : Int)), ((5 : Int), (4 : Int)), ((5 : Int), (5 : Int))] : List Cell).toFinset
    ∧ stepList [((5 : Int), (4 : Int)), ((5 : Int), (5 : Int)), ((5 : Int), (6 : Int))] 10 10
        = stepList [((5 : Int), (6 : Int)), ((5 : Int), (4 : Int)), ((5 : Int), (5 : Int))] 10 10 :=
  ⟨by decide, by decide, by decide,
    step_enumeration_order_independent
      [((5 : Int), (4 : Int)), ((5 : Int), (5 : Int)), ((5 : Int), (6 : Int))]
      [((5 : Int), (6 : Int)), ((5 : Int), (4 : Int)), ((5 : Int), (5 : Int))]
      10 10 (by decide) (by decide) (by decide)⟩

/-- C10: every output cell of `step` is in bounds (out-of-bounds live cells
are never produced, and nonpositive dimensions always give the empty set),
while out-of-bounds live cells still contribute to the neighbor counts of
in-bounds positions. -/
theorem step_stays_in_bounds (live : Finset Cell) (rows cols : Int) :
    (∀ p ∈ step live rows cols, inBounds rows cols p = true)
    ∧ (rows ≤ 0 ∨ cols ≤ 0 → step live rows cols = ∅)
    ∧ (∀ p, p ∈ step live rows cols ↔
        inBounds rows cols p = true ∧
          ((live ∩ mooreNeighbors p).card = 3 ∨
            ((live ∩ mooreNeighbors p).card = 2 ∧ p ∈ live))) := by
  have hchar := mem_step live rows cols
  have hb : ∀ p ∈ step live rows cols, inBounds rows cols p = true :=
    fun p hp => ((hchar p).mp hp).1
  refine ⟨hb, ?_, hchar⟩
  intro hz
  apply Finset.eq_empty_of_forall_not_mem
  intro p hp
  have hib := (inBounds_iff rows cols p).mp (hb p hp)
  omega

/-- Witness for C10: a live set with an out-of-bounds cell at `(-1, 0)`
still births `(0, 0)`, which the characterization certifies. -/
theorem step_stays_in_bounds_witness :
    inBounds 5 5 ((0 : Int), (0 : Int)) = true
    ∧ step ({((-1 : Int), (0 : Int)), ((0 : Int), (1 : Int)), ((1 : Int), (0 : Int))} : Finset Cell) 0 5 = ∅
    ∧ (((0 : Int), (0 : Int)) ∈
          step ({((-1 : Int), (0 : Int)), ((0 : Int), (1 : Int)), ((1 : Int), (0 : Int))} : Finset Cell) 5 5 ↔
        inBounds 5 5 ((0 : Int), (0 : Int)) = true ∧
          ((({((-1 : Int), (0 : Int)), ((0 : Int), (1 : Int)), ((1 : Int), (0 : Int))} : Finset Cell)
                ∩ mooreNeighbors ((0 : Int), (0 : Int))).card = 3 ∨
            ((({((-1 : Int), (0 : Int)), ((0 : Int), (1 : Int)), ((1 : Int), (0 : Int))} : Finset Cell)
                  ∩ mooreNeighbors ((0 : Int), (0 : Int))).card = 2 ∧
              ((0 : Int), (0 : Int)) ∈
                ({((-1 : Int), (0 : Int)), ((0 : Int), (1 : Int)), ((1 : Int), (0 : Int))} : Finset Cell)))) :=
  ⟨(step_stays_in_bounds
        ({((-1 : Int), (0 : Int)), ((0 : Int), (1 : Int)), ((1 : Int), (0 : Int))} : Finset Cell) 5 5).1
      ((0 : Int), (0 : Int)) (by decide),
    (step_stays_in_bounds
        ({((-1 : Int), (0 : Int)), ((0 : Int), (1 : Int)), ((1 : Int), (0 : Int))} : Finset Cell) 0 5).2.1
      (Or.inl (by norm_num)),
    (step_stays_in_bounds
        ({((-1 : Int), (0 : Int)), ((0 : Int), (1 : Int)), ((1 : Int), (0 : Int))} : Finset Cell) 5 5).2.2
      ((0 : Int), (0 : Int))⟩

/-- C3: the cycle/extinction check signals terminal exactly on a repeated
fingerprint or an empty live set, leaving the history unchanged in that
case; otherwise it records the fingerprint and signals continue; a second
submission of the same live set is terminal, and after a clear a previously
seen fingerprint signals continue again. -/
theorem cycle_detector_behavior (seen seen2 : Finset (Finset Cell)) (live : Finset Cell) :
    ((detector_check seen live).1 = true ↔ (fingerprint live ∈ seen ∨ live = ∅))
    ∧ (fingerprint live ∈ seen ∨ live = ∅ → detector_check seen live = (true, seen))
    ∧ (fingerprint live ∉ seen ∧ live ≠ ∅ →
        detector_check seen live = (false, insert (fingerprint live) seen))
    ∧ (detector_check seen live = (false, seen2) → (detector_check seen2 live).1 = true)
    ∧ (live ≠ ∅ → (detector_check (∅ : Finset (Finset Cell)) live).1 = false) := by
  refine ⟨?_, ?_, ?_, ?_, ?_⟩
  · by_cases hc : fingerprint live ∈ seen ∨ live = ∅ <;> simp [detector_check, hc]
  · intro hc
    simp [detector_check, hc]
  · intro hc
    rw [detector_check, if_neg (by tauto)]
  · intro heq
    by_cases hc : fingerprint live ∈ seen ∨ live = ∅
    · rw [detector_check, if_pos hc] at heq
      cases heq
    · rw [detector_check, if_neg hc] at heq
      have hs : seen2 = insert (fingerprint live) seen :=
        ((Prod.mk.injEq _ _ _ _ ▸ heq).2).symm
      rw [detector_check, if_pos (Or.inl (hs ▸ Finset.mem_insert_self _ _))]
  · intro hne
    rw [detector_check, if_neg (by simp [hne])]

/-- Witness for C3 with the singleton live set `{(0,0)}`. -/
theorem cycle_detector_behavior_witness :
    detector_check {({((0 : Int), (0 : Int))} : Finset Cell)} {((0 : Int), (0 : Int))}
        = (true, {({((0 : Int), (0 : Int))} : Finset Cell)})
    ∧ detector_check (∅ : Finset (Finset Cell)) {((0 : Int), (0 : Int))}
        = (false, insert (fingerprint {((0 : Int), (0 : Int))}) ∅)
    ∧ (detector_check (insert (fingerprint {((0 : Int), (0 : Int))}) ∅) {((0 : Int), (0 : Int))}).1 = true
    ∧ (detector_check (∅ : Finset (Finset Cell)) {((0 : Int), (0 : Int))}).1 = false :=
  ⟨(cycle_detector_behavior {({((0 : Int), (0 : Int))} : Finset Cell)} ∅
        {((0 : Int), (0 : Int))}).2.1 (Or.inl (Finset.mem_singleton_self _)),
    (cycle_detector_behavior (∅ : Finset (Finset Cell)) ∅ {((0 : Int), (0 : Int))}).2.2.1
      ⟨Finset.not_mem_empty _, by decide⟩,
    (cycle_detector_behavior (∅ : Finset (Finset Cell))
        (insert (fingerprint {((0 : Int), (0 : Int))}) ∅) {((0 : Int), (0 : Int))}).2.2.2.1
      ((cycle_detector_behavior (∅ : Finset (Finset Cell))
          (insert (fingerprint {((0 : Int), (0 : Int))}) ∅) {((0 : Int), (0 : Int))}).2.2.1
        ⟨Finset.not_mem_empty _, by decide⟩),
    (cycle_detector_behavior (∅ : Finset (Finset Cell)) ∅ {((0 : Int), (0 : Int))}).2.2.2.2
      (by decide)⟩

theorem normalizeCellsOpt_total (cells : List Cell) :
    normalizeCellsOpt cells = some (normalize_cells cells) := by
  cases cells with
  | nil => rfl
  | cons c cs => simp [normalizeCellsOpt, normalize_cells, minOpt]

/-- C8: the core operations are total — the fallible embeddings of
`normalize_cells` and `seed_pattern` (with Python `min`/`max` failure on
empty sequences made explicit) always succeed with the same value, an empty
pattern seeds to the empty live set, stepping the empty set yields the empty
set, and the fingerprint is defined for every live set. -/
theorem core_ops_total (cells : List Cell) (rows cols : Int) (live : Finset Cell) :
    normalizeCellsOpt cells = some (normalize_cells cells)
    ∧ seedPatternOpt cells rows cols = some (seed_pattern cells rows cols)
    ∧ seed_pattern [] rows cols = ∅
    ∧ step ∅ rows cols = ∅
    ∧ fingerprint live = live := by
  refine ⟨normalizeCellsOpt_total cells, ?_, rfl, ?_, rfl⟩
  · rcases hnc : normalize_cells cells with _ | ⟨c, cs⟩
    · simp [seedPatternOpt, normalizeCellsOpt_total, hnc,
        seed_pattern_of_norm_nil cells rows cols hnc]
    · simp [seedPatternOpt, normalizeCellsOpt_total, hnc, maxOpt,
        seed_pattern_of_norm_cons cells rows cols c cs hnc]
  · simp [step, candidates]

/-- Counterexample to C2 as stated: with the frame loop in state
(pattern 0, 5 by 5 board) and the next-pattern key `n` (code 110) observed,
the live set carried into the next frame is NOT the freshly seeded pattern 1
— the engine step was applied to the fresh seed in the same iteration
(the `n` branch of `run` does not `continue`). -/
theorem frame_next_key_steps_seed_cx :
    liveOf (frame ⟨0, 5, 5, {((0 : Int), (0 : Int))}, ∅⟩ 5 5 110) ≠
      seed_pattern (patterns.getD 1 []) 5 5 := by decide

theorem stepOrReseed_fresh (t : LoopState) (hseen : t.seen = ∅) (hlive : t.live ≠ ∅) :
    stepOrReseed t =
      { t with seen := insert (fingerprint t.live) ∅,
               live := step t.live t.rows t.cols } := by
  have hr : detector_check t.seen t.live = (false, insert (fingerprint t.live) ∅) := by
    rw [hseen]
    unfold detector_check
    rw [if_neg (show ¬(fingerprint t.live ∈ (∅ : Finset (Finset Cell)) ∨ t.live = ∅) from
      fun h => h.elim (fun hm => Finset.not_mem_empty _ hm) hlive)]
  unfold stepOrReseed
  rw [hr]
  rfl

theorem advance_resize (s : LoopState) (rowsNow colsNow : Int) :
    advancePattern (resizeStep s rowsNow colsNow) =
      { patternIndex := (s.patternIndex + 1) % patterns.length,
        rows := rowsNow, cols := colsNow,
        live := seed_pattern (patterns.getD ((s.patternIndex + 1) % patterns.length) [])
          rowsNow colsNow,
        seen := (∅ : Finset (Finset Cell)) } := by
  unfold resizeStep advancePattern
  by_cases hres : (rowsNow, colsNow) ≠ (s.rows, s.cols)
  · rw [if_pos hres]
  · rw [if_neg hres]
    have h1 : s.rows = rowsNow := (congrArg Prod.fst (not_not.mp hres)).symm
    have h2 : s.cols = colsNow := (congrArg Prod.snd (not_not.mp hres)).symm
    rw [h1, h2]

/-- C2 amended: on a next-pattern key the orchestrator advances the pattern
index modulo the catalog size, reseeds, clears the history, and then — in
the same iteration — runs the cycle check on the fresh seed, records its
fingerprint (when the seed is non-empty) and applies the engine step to it,
so the next drawn generation is the step of the fresh seed, not the seed
itself. -/
theorem frame_on_next_key (s : LoopState) (rowsNow colsNow : Int) (key : Int)
    (hk : key = keyCodeN ∨ key = keyCodeNU)
    (hseed : seed_pattern (patterns.getD ((s.patternIndex + 1) % patterns.length) [])
        rowsNow colsNow ≠ ∅) :
    frame s rowsNow colsNow key =
      FrameResult.cont
        { patternIndex := (s.patternIndex + 1) % patterns.length,
          rows := rowsNow, cols := colsNow,
          live := step (seed_pattern (patterns.getD ((s.patternIndex + 1) % patterns.length) [])
              rowsNow colsNow) rowsNow colsNow,
          seen := insert (fingerprint (seed_pattern
              (patterns.getD ((s.patternIndex + 1) % patterns.length) []) rowsNow colsNow)) ∅ } := by
  have hkq : ¬(key = keyCodeQ ∨ key = keyCodeQU) := by
    rcases hk with rfl | rfl <;> simp [keyCodeN, keyCodeNU, keyCodeQ, keyCodeQU]
  unfold frame
  rw [if_neg hkq, if_pos hk, advance_resize s rowsNow colsNow,
    stepOrReseed_fresh _ rfl hseed]

/-- Witness for the amended C2: pressing `n` in a concrete state. -/
theorem frame_on_next_key_witness :
    ((110 : Int) = keyCodeN ∨ (110 : Int) = keyCodeNU)
    ∧ seed_pattern (patterns.getD ((0 + 1) % patterns.length) []) 5 5 ≠ ∅
    ∧ frame ⟨0, 5, 5, {((0 : Int), (0 : Int))}, ∅⟩ 5 5 110 =
        FrameResult.cont
          { patternIndex := (0 + 1) % patterns.length,
            rows := 5, cols := 5,
            live := step (seed_pattern (patterns.getD ((0 + 1) % patterns.length) []) 5 5) 5 5,
            seen := insert (fingerprint
              (seed_pattern (patterns.getD ((0 + 1) % patterns.length) []) 5 5)) ∅ } :=
  ⟨Or.inl rfl, by decide,
    frame_on_next_key ⟨0, 5, 5, {((0 : Int), (0 : Int))}, ∅⟩ 5 5 110 (Or.inl rfl) (by decide)⟩
